import Mathlib

/-!
# Verification of FunctionApproxToolkit (src/approximations.py)

Shallow embedding of the two approximation engines of `approximations.py`:
`TaylorApproximation` and `PadeApproximation`.

The sympy symbolic expressions manipulated by the source are embedded as the
inductive type `SExpr` (constants, the single variable `x`, sums, products,
natural powers, sine and cosine — the constructors actually exercised by the
repository, whose demo function is `sp.sin`).  sympy's `diff` is the
structural symbolic derivative `sderiv`, `subs` is `subst`, and `lambdify`
composed with numpy evaluation is the denotation `eval : SExpr → ℝ → ℝ`.
Python numeric literals (ints/floats) are embedded as rationals `ℚ`;
numpy float arithmetic is idealised as real arithmetic `ℝ`.
-/

namespace Approx

/-- sympy expression trees, as built by the repository: a constant, the single
variable `symbols('x')`, sums, products, natural-number powers, `sin`, `cos`. -/
inductive SExpr : Type
  | const : ℚ → SExpr
  | var : SExpr
  | add : SExpr → SExpr → SExpr
  | mul : SExpr → SExpr → SExpr
  | pow : SExpr → ℕ → SExpr
  | sin : SExpr → SExpr
  | cos : SExpr → SExpr

/-- Denotation of a symbolic expression as a real function of the variable
`x` (the meaning sympy assigns to the tree; also what
`lambdify(x, e, modules=["numpy"])` computes pointwise). -/
noncomputable def eval : SExpr → ℝ → ℝ
  | .const q => fun _ => (q : ℝ)
  | .var => fun x => x
  | .add a b => fun x => eval a x + eval b x
  | .mul a b => fun x => eval a x * eval b x
  | .pow a n => fun x => eval a x ^ n
  | .sin a => fun x => Real.sin (eval a x)
  | .cos a => fun x => Real.cos (eval a x)

/-- sympy `diff(e, x)`: structural symbolic differentiation with respect to
the variable. -/
def sderiv : SExpr → SExpr
  | .const _ => .const 0
  | .var => .const 1
  | .add a b => .add (sderiv a) (sderiv b)
  | .mul a b => .add (.mul (sderiv a) b) (.mul a (sderiv b))
  | .pow a n => .mul (.mul (.const n) (.pow a (n - 1))) (sderiv a)
  | .sin a => .mul (.cos a) (sderiv a)
  | .cos a => .mul (.mul (.const (-1)) (.sin a)) (sderiv a)

/-- sympy `diff(e, x, n)`: the `n`-fold symbolic derivative. -/
def sderivN : ℕ → SExpr → SExpr
  | 0, e => e
  | n + 1, e => sderiv (sderivN n e)

/-- sympy `e.subs(x, q)`: substitute the number `q` for the variable. -/
def subst : SExpr → ℚ → SExpr
  | .const c, _ => .const c
  | .var, q => .const q
  | .add a b, q => .add (subst a q) (subst b q)
  | .mul a b, q => .mul (subst a q) (subst b q)
  | .pow a n, q => .pow (subst a q) n
  | .sin a, q => .sin (subst a q)
  | .cos a, q => .cos (subst a q)

theorem eval_subst (e : SExpr) (q : ℚ) (x : ℝ) : eval (subst e q) x = eval e (q : ℝ) := by
  induction e with
  | const c => rfl
  | var => rfl
  | add a b iha ihb => simp [subst, eval, iha, ihb]
  | mul a b iha ihb => simp [subst, eval, iha, ihb]
  | pow a n iha => simp [subst, eval, iha]
  | sin a iha => simp [subst, eval, iha]
  | cos a iha => simp [subst, eval, iha]

/-- Correctness of the symbolic derivative: the denotation of `sderiv e` is
the (real, analytic) derivative of the denotation of `e`. -/
theorem eval_hasDerivAt (e : SExpr) (x : ℝ) : HasDerivAt (eval e) (eval (sderiv e) x) x := by
  induction e with
  | const c =>
      simpa [eval, sderiv] using hasDerivAt_const x ((c : ℚ) : ℝ)
  | var =>
      simpa [eval, sderiv] using hasDerivAt_id x
  | add a b iha ihb =>
      simpa [eval, sderiv] using iha.add ihb
  | mul a b iha ihb =>
      simpa [eval, sderiv] using iha.mul ihb
  | pow a n iha =>
      simpa [eval, sderiv] using iha.pow n
  | sin a iha =>
      simpa [eval, sderiv] using iha.sin
  | cos a iha =>
      have h := iha.cos
      have : eval (sderiv (SExpr.cos a)) x = -Real.sin (eval a x) * eval (sderiv a) x := by
        simp [eval, sderiv]
      rw [show eval (SExpr.cos a) = fun y => Real.cos (eval a y) from rfl, this]
      exact h

theorem deriv_eval (e : SExpr) (x : ℝ) : deriv (eval e) x = eval (sderiv e) x :=
  (eval_hasDerivAt e x).deriv

/-- Every embedded expression denotes a smooth function. -/
theorem contDiff_eval (e : SExpr) : ContDiff ℝ ⊤ (eval e) := by
  induction e with
  | const c => exact contDiff_const
  | var => exact contDiff_id
  | add a b iha ihb => exact iha.add ihb
  | mul a b iha ihb => exact iha.mul ihb
  | pow a n iha => exact iha.pow n
  | sin a iha => exact (Real.contDiff_sin).comp iha
  | cos a iha => exact (Real.contDiff_cos).comp iha

/-- The `n`-fold symbolic derivative denotes the `n`-th iterated derivative. -/
theorem eval_sderivN (n : ℕ) (e : SExpr) : eval (sderivN n e) = iteratedDeriv n (eval e) := by
  induction n with
  | zero => simp [sderivN, iteratedDeriv_zero]
  | succ n ih =>
      funext x
      rw [show sderivN (n + 1) e = sderiv (sderivN n e) from rfl,
        ← (eval_hasDerivAt (sderivN n e) x).deriv, ih, iteratedDeriv_succ]

/-!
### sympy automatic evaluation and numpy lambdification

sympy applies "automatic evaluation" rules whenever an `Add`/`Mul`/`Pow`
node is constructed: numeric subterms are combined, `e**0` becomes `1`,
`e**1` becomes `e`, zero summands and unit factors vanish, a zero factor
annihilates, and `sin(0)`/`cos(0)` evaluate.  The canonical tree sympy
actually stores (and the one `lambdify`'s code printer sees) is therefore
`autoSimp` of the raw tree built by the source.  `lambdify(x, e)` of an
expression that still references `x` compiles to a vectorized numpy body,
which broadcasts over an input array and preserves its shape; but a CONSTANT
expression compiles to a constant body (`lambda x: c`), and the call then
returns the scalar `c` no matter what array is passed in. -/

/-- Does the expression reference the variable? (sympy: whether `x` is in
`e.free_symbols`.)  Decides whether `lambdify` compiles a vectorized body or
a constant body. -/
def containsVar : SExpr → Bool
  | .const _ => false
  | .var => true
  | .add a b => containsVar a || containsVar b
  | .mul a b => containsVar a || containsVar b
  | .pow a _ => containsVar a
  | .sin a => containsVar a
  | .cos a => containsVar a

/-- sympy automatic evaluation at `Add` construction: numbers combine and a
zero summand vanishes. -/
def mkAdd : SExpr → SExpr → SExpr
  | .const p, .const q => .const (p + q)
  | .const p, b => if p = 0 then b else .add (.const p) b
  | a, .const q => if q = 0 then a else .add a (.const q)
  | a, b => .add a b

/-- sympy automatic evaluation at `Mul` construction: numbers combine, a
zero factor annihilates, a unit factor vanishes. -/
def mkMul : SExpr → SExpr → SExpr
  | .const p, .const q => .const (p * q)
  | .const p, b => if p = 0 then .const 0 else if p = 1 then b else .mul (.const p) b
  | a, .const q => if q = 0 then .const 0 else if q = 1 then a else .mul a (.const q)
  | a, b => .mul a b

/-- sympy automatic evaluation at `Pow` construction with a literal natural
exponent: `e**0 → 1`, `e**1 → e`, numbers are evaluated. -/
def mkPow (a : SExpr) (n : ℕ) : SExpr :=
  if n = 0 then .const 1
  else if n = 1 then a
  else
    match a with
    | .const q => .const (q ^ n)
    | a => .pow a n

/-- sympy automatic evaluation of `sin` at the literal `0`. -/
def mkSin : SExpr → SExpr
  | .const q => if q = 0 then .const 0 else .sin (.const q)
  | a => .sin a

/-- sympy automatic evaluation of `cos` at the literal `0`. -/
def mkCos : SExpr → SExpr
  | .const q => if q = 0 then .const 1 else .cos (.const q)
  | a => .cos a

/-- The automatically-evaluated (canonical) form of a raw expression tree. -/
def autoSimp : SExpr → SExpr
  | .const q => .const q
  | .var => .var
  | .add a b => mkAdd (autoSimp a) (autoSimp b)
  | .mul a b => mkMul (autoSimp a) (autoSimp b)
  | .pow a n => mkPow (autoSimp a) n
  | .sin a => mkSin (autoSimp a)
  | .cos a => mkCos (autoSimp a)

theorem eval_mkAdd (a b : SExpr) (x : ℝ) : eval (mkAdd a b) x = eval a x + eval b x := by
  cases a <;> cases b <;>
    simp only [mkAdd, eval] <;>
    (try split_ifs) <;>
    simp_all [eval]

theorem eval_mkMul (a b : SExpr) (x : ℝ) : eval (mkMul a b) x = eval a x * eval b x := by
  cases a <;> cases b <;>
    simp only [mkMul, eval] <;>
    (try split_ifs) <;>
    simp_all [eval]

theorem eval_mkPow (a : SExpr) (n : ℕ) (x : ℝ) : eval (mkPow a n) x = eval a x ^ n := by
  unfold mkPow
  split_ifs with h h1
  · subst h
    simp [eval]
  · subst h1
    simp
  · cases a <;> simp [eval]

theorem eval_mkSin (a : SExpr) (x : ℝ) : eval (mkSin a) x = Real.sin (eval a x) := by
  cases a <;> simp only [mkSin, eval]
  split_ifs with h
  · simp [h, eval]
  · simp [eval]

theorem eval_mkCos (a : SExpr) (x : ℝ) : eval (mkCos a) x = Real.cos (eval a x) := by
  cases a <;> simp only [mkCos, eval]
  split_ifs with h
  · simp [h, eval]
  · simp [eval]

/-- sympy's automatic evaluation is sound: the canonical tree denotes the
same function as the raw tree. -/
theorem eval_autoSimp (e : SExpr) (x : ℝ) : eval (autoSimp e) x = eval e x := by
  induction e with
  | const q => rfl
  | var => rfl
  | add a b iha ihb => simp [autoSimp, eval_mkAdd, iha, ihb, eval]
  | mul a b iha ihb => simp [autoSimp, eval_mkMul, iha, ihb, eval]
  | pow a n iha => simp [autoSimp, eval_mkPow, iha, eval]
  | sin a iha => simp [autoSimp, eval_mkSin, iha, eval]
  | cos a iha => simp [autoSimp, eval_mkCos, iha, eval]

/-- The value a numpy-lambdified function call returns: a scalar (when the
compiled body is constant) or an array. -/
inductive NumpyResult : Type
  | scalar : ℝ → NumpyResult
  | array : List ℝ → NumpyResult

/-!
## TaylorApproximation (src/approximations.py, lines 13-56)

The Python object state: `degree` and `point` (Python numbers; `degree` is
used as a range bound so it may be any integer, `point` is a numeric literal,
embedded as `ℚ`), the symbolic function `func_symbolic = function(x)` (here
the `SExpr` directly), and the mutable `coefficients` list of symbolic values.
The symbol `self.x` is implicit: `SExpr` has the one variable `SExpr.var`.
-/

structure TaylorApproximation where
  degree : ℤ
  point : ℚ
  func_symbolic : SExpr
  coefficients : List SExpr

namespace TaylorApproximation

/-- `TaylorApproximation.__init__(function, degree, point=0)`:
stores the parameters and starts with an empty coefficient list. -/
def mkTaylor (function : SExpr) (degree : ℤ) (point : ℚ) : TaylorApproximation :=
  { degree := degree, point := point, func_symbolic := function, coefficients := [] }

/-- `compute_coefficients`: for `n in range(self.degree + 1)` append
`diff(f, x, n).subs(x, point) / factorial(n)` to `self.coefficients`.
sympy's division of an expression by the integer `n!` is multiplication by
the exact rational `1/n!`. A negative `degree` makes the Python `range`
empty, so nothing is appended and no error is raised. -/
def compute_coefficients (st : TaylorApproximation) : TaylorApproximation :=
  { st with
    coefficients := st.coefficients ++
      (List.range (st.degree + 1).toNat).map fun n =>
        SExpr.mul (subst (sderivN n st.func_symbolic) st.point)
          (SExpr.const (1 / (n.factorial : ℚ))) }

/-- `series`: `sum(coeff * (x - point) ** n for n, coeff in enumerate(coefficients))`.
Python's `sum` left-folds starting from `0`; sympy writes `x - point` as
`x + (-point)`. -/
def series (st : TaylorApproximation) : SExpr :=
  st.coefficients.enum.foldl
    (fun acc nc =>
      SExpr.add acc
        (SExpr.mul nc.2 (SExpr.pow (SExpr.add SExpr.var (SExpr.const (-st.point))) nc.1)))
    (SExpr.const 0)

/-- `evaluate_series(x_values)`: `lambdify(x, self.series(), modules=["numpy"])`
called on a one-dimensional array.  When the (automatically-evaluated)
series expression still references `x`, the compiled numpy body broadcasts
elementwise and the result is an array of the input's shape; when the series
is a CONSTANT expression (e.g. `degree = 0`, a constant function, or an
uncomputed instance, whose series is `0`), `lambdify` compiles a constant
body and the call returns that scalar whatever the input array is. -/
noncomputable def evaluate_series (st : TaylorApproximation) (x_values : List ℝ) : NumpyResult :=
  if containsVar (autoSimp (series st)) then .array (x_values.map (eval (series st)))
  else .scalar (eval (series st) 0)

end TaylorApproximation

/-- Value of the `n`-th coefficient appended by
`TaylorApproximation.compute_coefficients` on a fresh instance: the `n`-th
derivative at the point over `n!`. -/
theorem taylor_entry (f : SExpr) (d : ℤ) (pt : ℚ) (n : ℕ)
    (hn : n < (d + 1).toNat) (x : ℝ) :
    eval (((TaylorApproximation.mkTaylor f d pt).compute_coefficients).coefficients.getD n
      (SExpr.const 0)) x
      = iteratedDeriv n (eval f) (pt : ℝ) / n.factorial := by
  have hco : ((TaylorApproximation.mkTaylor f d pt).compute_coefficients).coefficients
      = (List.range (d + 1).toNat).map fun n =>
          SExpr.mul (subst (sderivN n f) pt) (SExpr.const (1 / (n.factorial : ℚ))) := by
    simp [TaylorApproximation.compute_coefficients, TaylorApproximation.mkTaylor]
  rw [hco]
  have hlt : n < ((List.range (d + 1).toNat).map fun n =>
      SExpr.mul (subst (sderivN n f) pt) (SExpr.const (1 / (n.factorial : ℚ)))).length := by
    simpa using hn
  rw [List.getD_eq_getElem _ _ hlt]
  simp only [List.getElem_map, List.getElem_range]
  rw [show eval (SExpr.mul (subst (sderivN n f) pt) (SExpr.const (1 / (n.factorial : ℚ)))) x
      = eval (subst (sderivN n f) pt) x * ((1 / (n.factorial : ℚ) : ℚ) : ℝ) from rfl,
    eval_subst, eval_sderivN]
  push_cast
  rw [mul_one_div]

/-- Evaluation of the symbolic `series` expression: the polynomial
`Σ cᵢ (x - point)^i` over the stored coefficient list. -/
theorem eval_series_foldl (cs : List SExpr) (p : ℚ) (k : ℕ) (acc : SExpr) (x : ℝ) :
    eval ((cs.enumFrom k).foldl
      (fun acc nc =>
        SExpr.add acc (SExpr.mul nc.2 (SExpr.pow (SExpr.add SExpr.var (SExpr.const (-p))) nc.1)))
      acc) x
    = eval acc x + ∑ i ∈ Finset.range cs.length,
        eval (cs.getD i (SExpr.const 0)) x * (x - (p : ℝ)) ^ (k + i) := by
  induction cs generalizing k acc with
  | nil => simp
  | cons c t ih =>
      rw [show (c :: t).enumFrom k = (k, c) :: t.enumFrom (k + 1) from rfl]
      rw [List.foldl_cons, ih]
      have hbase : eval (SExpr.add SExpr.var (SExpr.const (-p))) x = x - (p : ℝ) := by
        simp [eval]
        ring
      have hstep : ∀ i : ℕ, k + 1 + i = k + (i + 1) := by omega
      rw [show eval (SExpr.add acc
          (SExpr.mul c (SExpr.pow (SExpr.add SExpr.var (SExpr.const (-p))) k))) x
          = eval acc x + eval c x * (eval (SExpr.add SExpr.var (SExpr.const (-p))) x) ^ k
          from rfl, hbase]
      rw [show (c :: t).length = t.length + 1 from rfl, Finset.sum_range_succ']
      simp only [List.getD_cons_succ, List.getD_cons_zero, hstep]
      ring

theorem eval_series (st : TaylorApproximation) (x : ℝ) :
    eval (st.series) x
      = ∑ i ∈ Finset.range st.coefficients.length,
          eval (st.coefficients.getD i (SExpr.const 0)) x * (x - (st.point : ℝ)) ^ i := by
  have h := eval_series_foldl st.coefficients st.point 0 (SExpr.const 0) x
  rw [show eval (SExpr.const 0) x = 0 from by norm_num [eval], zero_add] at h
  simpa [TaylorApproximation.series, List.enum] using h

/-- Iterated derivatives of the monomial `x ^ k`: the falling factorial
times the reduced power. -/
theorem iteratedDeriv_monomial (n k : ℕ) :
    iteratedDeriv n (fun y : ℝ => y ^ k) = fun x => (k.descFactorial n : ℝ) * x ^ (k - n) := by
  induction n with
  | zero => funext x; simp [iteratedDeriv_zero]
  | succ n ih =>
      funext x
      rw [iteratedDeriv_succ, ih]
      have hd : deriv (fun x : ℝ => (k.descFactorial n : ℝ) * x ^ (k - n)) x
          = (k.descFactorial n : ℝ) * (((k - n : ℕ) : ℝ) * x ^ (k - n - 1)) :=
        ((hasDerivAt_pow (k - n) x).const_mul _).deriv
      rw [hd, Nat.descFactorial_succ, show k - (n + 1) = k - n - 1 from by omega]
      push_cast
      ring

/-- Claim C1: for every symbolic function and every `degree ≥ 0`, one call to
`compute_coefficients` on a fresh `TaylorApproximation` yields a list of
length `degree + 1` whose `n`-th entry is the exact symbolic value
`f⁽ⁿ⁾(point) / n!` (its denotation, at any assignment, is the `n`-th
iterated derivative of the function at the point divided by `n!`). -/
theorem taylor_compute_coefficients_spec (f : SExpr) (degree : ℤ) (point : ℚ)
    (hdeg : 0 ≤ degree)
    (_hdiff : ContDiffAt ℝ degree.toNat (eval f) ((point : ℚ) : ℝ)) :
    ((((TaylorApproximation.mkTaylor f degree point).compute_coefficients).coefficients.length : ℤ)
        = degree + 1) ∧
    ∀ n : ℕ, n < (degree + 1).toNat → ∀ x : ℝ,
      eval (((TaylorApproximation.mkTaylor f degree point).compute_coefficients).coefficients.getD n
        (SExpr.const 0)) x = iteratedDeriv n (eval f) ((point : ℚ) : ℝ) / n.factorial := by
  constructor
  · have : (((TaylorApproximation.mkTaylor f degree point).compute_coefficients).coefficients.length)
        = (degree + 1).toNat := by
      simp [TaylorApproximation.compute_coefficients, TaylorApproximation.mkTaylor]
    rw [this]
    omega
  · exact fun n hn x => taylor_entry f degree point n hn x

/-- Witness for C1 at `f = sin x`, `degree = 2`, `point = 0`. -/
theorem taylor_compute_coefficients_spec_witness :
    (0 : ℤ) ≤ 2 ∧
    ContDiffAt ℝ (2 : ℤ).toNat (eval (SExpr.sin SExpr.var)) (((0 : ℚ) : ℚ) : ℝ) ∧
    (((((TaylorApproximation.mkTaylor (SExpr.sin SExpr.var) 2 0).compute_coefficients).coefficients.length : ℤ)
        = 2 + 1) ∧
      ∀ n : ℕ, n < ((2 : ℤ) + 1).toNat → ∀ x : ℝ,
        eval (((TaylorApproximation.mkTaylor (SExpr.sin SExpr.var) 2 0).compute_coefficients).coefficients.getD n
          (SExpr.const 0)) x
          = iteratedDeriv n (eval (SExpr.sin SExpr.var)) (((0 : ℚ) : ℚ) : ℝ) / n.factorial) :=
  ⟨by norm_num, (contDiff_eval _).contDiffAt.of_le le_top,
    taylor_compute_coefficients_spec (SExpr.sin SExpr.var) 2 0 (by norm_num)
      ((contDiff_eval _).contDiffAt.of_le le_top)⟩

/-- Claim C5 counterexample: for `f(x) = x^1`, `degree = 1` and expansion
point `1`, the coefficient `c₀` equals `1`, not `0` as the claim (quantified
over every expansion point) requires for every index other than `k = 1`. -/
theorem taylor_monomial_cex :
    eval (((TaylorApproximation.mkTaylor (SExpr.pow SExpr.var 1) 1 1).compute_coefficients).coefficients.getD 0
      (SExpr.const 0)) 0 = 1 ∧ (1 : ℝ) ≠ 0 := by
  refine ⟨?_, one_ne_zero⟩
  have h := taylor_entry (SExpr.pow SExpr.var 1) 1 1 0 (by norm_num) 0
  rw [h, show eval (SExpr.pow SExpr.var 1) = fun y : ℝ => y ^ 1 from rfl,
    iteratedDeriv_monomial]
  norm_num

/-- Claim C5 (amended): at expansion point `0`, the Taylor coefficients of
`f(x) = x^k` (with `k ≤ degree`) are `c_k = 1` and `0` elsewhere.  (At a
non-zero expansion point the code instead produces the binomial coefficients
of the shifted polynomial, see the counterexample.) -/
theorem taylor_monomial_at_zero (k : ℕ) (degree : ℤ) (hk : (k : ℤ) ≤ degree) :
    ∀ n : ℕ, n < (degree + 1).toNat → ∀ x : ℝ,
      eval (((TaylorApproximation.mkTaylor (SExpr.pow SExpr.var k) degree 0).compute_coefficients).coefficients.getD n
        (SExpr.const 0)) x
        = if n = k then 1 else 0 := by
  intro n hn x
  rw [taylor_entry _ _ _ n hn x,
    show eval (SExpr.pow SExpr.var k) = fun y : ℝ => y ^ k from rfl,
    iteratedDeriv_monomial]
  rcases lt_trichotomy n k with h | h | h
  · rw [if_neg (Nat.ne_of_lt h)]
    norm_num
    exact Or.inl (Or.inr (by omega))
  · subst h
    rw [if_pos rfl]
    norm_num [Nat.descFactorial_self]
    rw [div_self (by exact_mod_cast n.factorial_ne_zero)]
  · rw [if_neg (Nat.ne_of_gt h), Nat.descFactorial_eq_zero_iff_lt.mpr h]
    norm_num

/-- Witness for the amended C5 at `k = 2`, `degree = 3`. -/
theorem taylor_monomial_at_zero_witness :
    ((2 : ℕ) : ℤ) ≤ 3 ∧
    ∀ n : ℕ, n < ((3 : ℤ) + 1).toNat → ∀ x : ℝ,
      eval (((TaylorApproximation.mkTaylor (SExpr.pow SExpr.var 2) 3 0).compute_coefficients).coefficients.getD n
        (SExpr.const 0)) x
        = if n = 2 then 1 else 0 :=
  ⟨by norm_num, taylor_monomial_at_zero 2 3 (by norm_num)⟩

/-- The compiled series of a computed instance denotes the Taylor
polynomial `Σ_{n ≤ degree} f⁽ⁿ⁾(point)/n! · (x - point)^n`. -/
theorem eval_series_computed (f : SExpr) (degree : ℤ) (point : ℚ) (x : ℝ) :
    eval (((TaylorApproximation.mkTaylor f degree point).compute_coefficients).series) x
      = ∑ n ∈ Finset.range (degree + 1).toNat,
          iteratedDeriv n (eval f) ((point : ℚ) : ℝ) / n.factorial * (x - (point : ℝ)) ^ n := by
  rw [eval_series]
  have hlen : (((TaylorApproximation.mkTaylor f degree point).compute_coefficients).coefficients.length)
      = (degree + 1).toNat := by
    simp [TaylorApproximation.compute_coefficients, TaylorApproximation.mkTaylor]
  have hpt : ((TaylorApproximation.mkTaylor f degree point).compute_coefficients).point = point := rfl
  rw [hlen, hpt]
  exact Finset.sum_congr rfl fun i hi => by
    rw [taylor_entry f degree point i (Finset.mem_range.mp hi) x]

/-- Claim C7 counterexample: for the computed `degree = 0` instance of
`sin` at point `0`, the built series is (after sympy's automatic
evaluation: `(x-0)**0 → 1`, `sin(0) → 0`, `0·e → 0`, `0+e → e`) a constant
expression, so the lambdified function returns a SCALAR for the two-element
array input — not an array of two values as the claim requires for every
computed instance. -/
theorem evaluate_series_shape_cex :
    ((TaylorApproximation.mkTaylor (SExpr.sin SExpr.var) 0 0).compute_coefficients).evaluate_series
        [0, 1] = .scalar 0 ∧
    ∀ l : List ℝ, (NumpyResult.scalar 0 : NumpyResult) ≠ .array l := by
  have hs : ((TaylorApproximation.mkTaylor (SExpr.sin SExpr.var) 0 0).compute_coefficients).series
      = SExpr.add (SExpr.const 0)
          (SExpr.mul
            (SExpr.mul (SExpr.sin (SExpr.const 0)) (SExpr.const (1 / (Nat.factorial 0 : ℚ))))
            (SExpr.pow (SExpr.add SExpr.var (SExpr.const (-0))) 0)) := rfl
  have hnv : containsVar (autoSimp
      (((TaylorApproximation.mkTaylor (SExpr.sin SExpr.var) 0 0).compute_coefficients).series))
      = false := by
    rw [hs]
    norm_num [autoSimp, mkAdd, mkMul, mkPow, mkSin, mkCos, containsVar, Nat.factorial]
  constructor
  · unfold TaylorApproximation.evaluate_series
    rw [if_neg (by simp [hnv]), hs]
    norm_num [eval, Nat.factorial, Real.sin_zero]
  · intro l h
    exact NumpyResult.noConfusion h

/-- Claim C7 (amended): whenever the compiled series expression still
references the variable after sympy's automatic evaluation (any instance
with a surviving positive-degree term — e.g. `sin` at a positive degree),
`evaluate_series` returns an array of exactly the input's length whose
entries are the (total, real) Taylor-polynomial values, so no undefined
value can arise for smooth inputs; the compiled series itself is
`Σ_{n ≤ degree} f⁽ⁿ⁾(point)/n! · (x - point)^n` (third conjunct — also the
scalar-input case: the compiled function applied to one real).  When the
series is constant (e.g. `degree = 0`), `lambdify` instead returns a scalar
(see the counterexample), so shape preservation holds only under this
proviso. -/
theorem evaluate_series_shape (f : SExpr) (degree : ℤ) (point : ℚ) (xs : List ℝ)
    (hvar : containsVar (autoSimp
      (((TaylorApproximation.mkTaylor f degree point).compute_coefficients).series)) = true) :
    ((TaylorApproximation.mkTaylor f degree point).compute_coefficients).evaluate_series xs
        = .array (xs.map (fun x => ∑ n ∈ Finset.range (degree + 1).toNat,
            iteratedDeriv n (eval f) ((point : ℚ) : ℝ) / n.factorial * (x - (point : ℝ)) ^ n)) ∧
    (xs.map (fun x => ∑ n ∈ Finset.range (degree + 1).toNat,
        iteratedDeriv n (eval f) ((point : ℚ) : ℝ) / n.factorial * (x - (point : ℝ)) ^ n)).length
      = xs.length ∧
    ∀ x : ℝ, eval (((TaylorApproximation.mkTaylor f degree point).compute_coefficients).series) x
        = ∑ n ∈ Finset.range (degree + 1).toNat,
            iteratedDeriv n (eval f) ((point : ℚ) : ℝ) / n.factorial * (x - (point : ℝ)) ^ n := by
  refine ⟨?_, List.length_map _ _, eval_series_computed f degree point⟩
  unfold TaylorApproximation.evaluate_series
  rw [if_pos hvar, funext (eval_series_computed f degree point)]

/-- The raw series tree of the computed `sin`, `degree = 1`, `point = 0`
instance, and the fact that its automatically-evaluated form (namely `x`)
still references the variable. -/
theorem sin_deg1_containsVar :
    containsVar (autoSimp
      (((TaylorApproximation.mkTaylor (SExpr.sin SExpr.var) 1 0).compute_coefficients).series))
      = true := by
  have hs : ((TaylorApproximation.mkTaylor (SExpr.sin SExpr.var) 1 0).compute_coefficients).series
      = SExpr.add
          (SExpr.add (SExpr.const 0)
            (SExpr.mul
              (SExpr.mul (SExpr.sin (SExpr.const 0)) (SExpr.const (1 / (Nat.factorial 0 : ℚ))))
              (SExpr.pow (SExpr.add SExpr.var (SExpr.const (-0))) 0)))
          (SExpr.mul
            (SExpr.mul (SExpr.mul (SExpr.cos (SExpr.const 0)) (SExpr.const 1))
              (SExpr.const (1 / (Nat.factorial 1 : ℚ))))
            (SExpr.pow (SExpr.add SExpr.var (SExpr.const (-0))) 1)) := rfl
  rw [hs]
  norm_num [autoSimp, mkAdd, mkMul, mkPow, mkSin, mkCos, containsVar, Nat.factorial]

/-- Witness for the amended C7 at `f = sin x`, `degree = 1`, `point = 0`,
three input points: the compiled series is `x` (up to automatic evaluation),
which references the variable, and the result is the length-3 array of
Taylor-polynomial values. -/
theorem evaluate_series_shape_witness :
    containsVar (autoSimp
      (((TaylorApproximation.mkTaylor (SExpr.sin SExpr.var) 1 0).compute_coefficients).series))
      = true ∧
    (((TaylorApproximation.mkTaylor (SExpr.sin SExpr.var) 1 0).compute_coefficients).evaluate_series
        [0, 1, 2]
        = .array (([0, 1, 2] : List ℝ).map (fun x => ∑ n ∈ Finset.range ((1 : ℤ) + 1).toNat,
            iteratedDeriv n (eval (SExpr.sin SExpr.var)) (((0 : ℚ) : ℚ) : ℝ) / n.factorial
              * (x - ((0 : ℚ) : ℝ)) ^ n)) ∧
      (([0, 1, 2] : List ℝ).map (fun x => ∑ n ∈ Finset.range ((1 : ℤ) + 1).toNat,
          iteratedDeriv n (eval (SExpr.sin SExpr.var)) (((0 : ℚ) : ℚ) : ℝ) / n.factorial
            * (x - ((0 : ℚ) : ℝ)) ^ n)).length
        = ([0, 1, 2] : List ℝ).length ∧
      ∀ x : ℝ,
        eval (((TaylorApproximation.mkTaylor (SExpr.sin SExpr.var) 1 0).compute_coefficients).series) x
          = ∑ n ∈ Finset.range ((1 : ℤ) + 1).toNat,
              iteratedDeriv n (eval (SExpr.sin SExpr.var)) (((0 : ℚ) : ℚ) : ℝ) / n.factorial
                * (x - ((0 : ℚ) : ℝ)) ^ n) :=
  ⟨sin_deg1_containsVar,
    evaluate_series_shape (SExpr.sin SExpr.var) 1 0 [0, 1, 2] sin_deg1_containsVar⟩

/-- Claim C4 counterexample: `degree = -1` is not rejected —
`compute_coefficients` returns normally (the embedded method is total, as the
source contains no validation and no raise on this path: `range(0)` is
empty) and the coefficient list is left empty. -/
theorem taylor_negative_degree_cex :
    ((TaylorApproximation.mkTaylor (SExpr.sin SExpr.var) (-1) 0).compute_coefficients).coefficients
      = [] := rfl

/-- Claim C10: before `compute_coefficients` is ever called, `series()`
raises nothing and is the constant expression `0` (Python's `sum` over the
empty coefficient list), so `evaluate_series` silently evaluates the zero
function — `lambdify` of the constant `0` returns the value `0` for every
input — instead of signalling uninitialized state. -/
theorem series_empty_before_compute (f : SExpr) (d : ℤ) (pt : ℚ) :
    (TaylorApproximation.mkTaylor f d pt).series = SExpr.const 0 ∧
    ∀ xs : List ℝ, (TaylorApproximation.mkTaylor f d pt).evaluate_series xs
      = .scalar 0 := by
  refine ⟨rfl, fun xs => ?_⟩
  unfold TaylorApproximation.evaluate_series
  rw [show (TaylorApproximation.mkTaylor f d pt).series = SExpr.const 0 from rfl,
    if_neg (by decide)]
  norm_num [eval]

/-!
## PadeApproximation (src/approximations.py, lines 58-105)

`compute_coefficients` (lines 86-94) does, in order:

1. `series(self.function, self.x, n=self.order_m + self.order_n + 1).removeO()`
   — sympy's `series` is called WITHOUT an `x0` argument, so it expands about
   `x0 = 0` (sympy's default), not about `self.point`.  For the analytic
   functions representable as `SExpr`, the coefficient of `x^i` in that
   expansion is `f⁽ⁱ⁾(0) / i!`.
2. `[float(taylor_series.coeff(self.x, i).evalf()) for i in range(m + n + 1)]`
   — numeric extraction, embedded as the real values themselves.
3. `scipy.interpolate.pade(taylor_coeffs, self.order_n)`, which solves the
   square linear system expressing the Pade matching conditions
   `Q(x)·A(x) ≡ P(x) (mod x^{m+n+1})` with `Q` normalized by constant term
   `q₀ = 1`, `deg P ≤ order_m`, `deg Q ≤ order_n` (numerator coefficients
   `p_k`, `k ≤ n_num := len(an) - 1 - order_n`, and denominator coefficients
   `q₁..q_m` are the unknowns; row `k` of the system reads
   `p_k = Σ_{j ≤ min(k, m)} q_j a_{k-j}`).  `np.linalg.solve` raises
   `LinAlgError` exactly when that square matrix is singular, i.e. when the
   system does not have a unique solution; scipy itself raises `ValueError`
   when an order is negative.  The two polynomials are returned as
   `np.poly1d` objects: coefficient lists in DESCENDING power order with
   leading zeros stripped (an all-zero list collapses to `[0]`).
-/

/-- scipy/numpy error outcomes surfaced by `pade` /`np.linalg.solve`. -/
inductive PadeError : Type
  | valueError : PadeError
  | linAlgError : PadeError

/-- The linear system solved by `scipy.interpolate.pade` for Taylor
coefficients `a`, numerator degree bound `nnum` and denominator degree bound
`mden`: `(p, q)` with `q₀ = 1`, support bounds, and the matching rows. -/
def padeSystem (a : ℕ → ℝ) (nnum mden : ℕ) (pq : (ℕ → ℝ) × (ℕ → ℝ)) : Prop :=
  pq.2 0 = 1 ∧ (∀ j, mden < j → pq.2 j = 0) ∧ (∀ k, nnum < k → pq.1 k = 0) ∧
  ∀ k, k ≤ nnum + mden →
    pq.1 k = ∑ j ∈ Finset.range (mden + 1), if j ≤ k then pq.2 j * a (k - j) else 0

open scoped Classical

/-- Leading-zero stripping performed by `np.poly1d` on a descending
coefficient list. -/
noncomputable def trimZeros : List ℝ → List ℝ
  | [] => []
  | c :: t => if c = 0 then trimZeros t else c :: t

/-- `np.poly1d(ascending[::-1])`: reverse an ascending coefficient list into
descending order and strip leading zeros (an all-zero polynomial keeps a
single `0`). -/
noncomputable def poly1d (ascending : List ℝ) : List ℝ :=
  if trimZeros ascending.reverse = [] then [0] else trimZeros ascending.reverse

/-- `scipy.interpolate.pade(an, m)` with `m = order_n`: numerator order
`n = len(an) - 1 - m`; negative orders raise `ValueError`; otherwise the
square system is solved by `np.linalg.solve`, which raises `LinAlgError`
exactly when it is singular (no unique solution), and the solution is
returned as two descending `poly1d` coefficient lists `(p, q)`. -/
noncomputable def pade (an : List ℝ) (m : ℤ) : Except PadeError (List ℝ × List ℝ) :=
  if (an.length : ℤ) - 1 - m < 0 ∨ m < 0 then .error .valueError
  else if h : ∃! pq : (ℕ → ℝ) × (ℕ → ℝ),
      padeSystem (fun i => an.getD i 0) ((an.length : ℤ) - 1 - m).toNat m.toNat pq then
    .ok (poly1d ((List.range (((an.length : ℤ) - 1 - m).toNat + 1)).map h.choose.1),
         poly1d ((List.range (m.toNat + 1)).map h.choose.2))
  else .error .linAlgError

/-- Step 1 + 2 of `PadeApproximation.compute_coefficients`: the float list
`[float(series(f, x, n=nterms).removeO().coeff(x, i).evalf()) for i in range(nterms)]`.
sympy's `series` without `x0` expands about `0`, so the coefficient of `x^i`
is `f⁽ⁱ⁾(0) / i!`. -/
noncomputable def taylor_coeffs (f : SExpr) (nterms : ℕ) : List ℝ :=
  (List.range nterms).map fun i => eval (sderivN i f) 0 / i.factorial

structure PadeApproximation where
  function : SExpr
  order_m : ℤ
  order_n : ℤ
  point : ℚ
  numerator : Option (List ℝ)
  denominator : Option (List ℝ)

namespace PadeApproximation

/-- `PadeApproximation.__init__(function, order_m, order_n, point=0)`. -/
def mkPade (function : SExpr) (order_m order_n : ℤ) (point : ℚ) : PadeApproximation :=
  { function := function, order_m := order_m, order_n := order_n, point := point,
    numerator := none, denominator := none }

/-- `PadeApproximation.compute_coefficients`: extract the about-zero Taylor
coefficients and hand them to scipy's `pade`; only on success are
`self.numerator` and `self.denominator` assigned — an exception from `pade`
propagates (`Except.error`) and the two fields keep their previous value. -/
noncomputable def compute_coefficients (st : PadeApproximation) :
    Except PadeError PadeApproximation :=
  match pade (taylor_coeffs st.function (st.order_m + st.order_n + 1).toNat) st.order_n with
  | .ok pq => .ok { st with numerator := some pq.1, denominator := some pq.2 }
  | .error e => .error e

end PadeApproximation

/-- Coefficient of `x^i` in a descending `poly1d` coefficient list. -/
def polyCoeff (l : List ℝ) (i : ℕ) : ℝ :=
  if i < l.length then l.getD (l.length - 1 - i) 0 else 0

/-- The six about-zero Taylor coefficients of `sin x` extracted by step 1+2
of `PadeApproximation.compute_coefficients` for `order_m = 3`, `order_n = 2`. -/
theorem taylor_coeffs_sin :
    taylor_coeffs (SExpr.sin SExpr.var) 6 = [0, 1, 0, -(1 / 6), 0, 1 / 120] := by
  norm_num [taylor_coeffs, List.range_succ, sderivN, sderiv, eval, Nat.factorial]

/-- Evaluation rule for `pade` when the square system has the (unique)
solution `x₀`. -/
theorem pade_eq_ok (an : List ℝ) (m : ℤ)
    (hg : ¬((an.length : ℤ) - 1 - m < 0 ∨ m < 0))
    (x₀ : (ℕ → ℝ) × (ℕ → ℝ))
    (hx : padeSystem (fun i => an.getD i 0) ((an.length : ℤ) - 1 - m).toNat m.toNat x₀)
    (hu : ∀ y, padeSystem (fun i => an.getD i 0) ((an.length : ℤ) - 1 - m).toNat m.toNat y
      → y = x₀) :
    pade an m = .ok (poly1d ((List.range (((an.length : ℤ) - 1 - m).toNat + 1)).map x₀.1),
                     poly1d ((List.range (m.toNat + 1)).map x₀.2)) := by
  have hexu : ∃! pq : (ℕ → ℝ) × (ℕ → ℝ),
      padeSystem (fun i => an.getD i 0) ((an.length : ℤ) - 1 - m).toNat m.toNat pq :=
    ⟨x₀, hx, hu⟩
  unfold pade
  rw [if_neg hg, dif_pos hexu, hu _ hexu.choose_spec.1]

theorem trimZeros_getLast (l : List ℝ) (c : ℝ) (hc : c ≠ 0) (h : l.getLast? = some c) :
    trimZeros l ≠ [] ∧ (trimZeros l).getLast? = some c := by
  induction l with
  | nil => simp at h
  | cons a t ih =>
      cases t with
      | nil =>
          simp at h
          subst h
          rw [show trimZeros [a] = if a = 0 then trimZeros [] else [a] from rfl, if_neg hc]
          exact ⟨by simp, by simp⟩
      | cons b t2 =>
          have h2 : (b :: t2).getLast? = some c := by
            rwa [List.getLast?_cons_cons] at h
          rw [show trimZeros (a :: b :: t2)
              = if a = 0 then trimZeros (b :: t2) else a :: b :: t2 from rfl]
          by_cases ha : a = 0
          · rw [if_pos ha]; exact ih h2
          · rw [if_neg ha]
            exact ⟨by simp, by rwa [List.getLast?_cons_cons]⟩

/-- `np.poly1d` keeps the last (lowest-order) coefficient of a list whose
ascending head is non-zero. -/
theorem poly1d_getLast (asc : List ℝ) (c : ℝ) (hc : c ≠ 0) (h : asc.head? = some c) :
    (poly1d asc).getLast? = some c := by
  have hrev : asc.reverse.getLast? = some c := by
    rw [List.getLast?_reverse]; exact h
  obtain ⟨hne, hlast⟩ := trimZeros_getLast asc.reverse c hc hrev
  unfold poly1d
  rw [if_neg hne]
  exact hlast

/-- Numerator coefficient function (ascending) of the `sin`, `(3,2)` Pade
solution: `P(x) = x - 7x³/60`. -/
noncomputable def sinPadeP : ℕ → ℝ := fun k => if k = 1 then 1 else if k = 3 then -(7 / 60) else 0

/-- Denominator coefficient function (ascending) of the `sin`, `(3,2)` Pade
solution: `Q(x) = 1 + x²/20`. -/
noncomputable def sinPadeQ : ℕ → ℝ := fun j => if j = 0 then 1 else if j = 2 then 1 / 20 else 0

theorem sinPade_system :
    padeSystem (fun i => ([0, 1, 0, -(1 / 6), 0, 1 / 120] : List ℝ).getD i 0) 3 2
      (sinPadeP, sinPadeQ) := by
  refine ⟨rfl, ?_, ?_, ?_⟩
  · intro j hj
    simp only [sinPadeQ]
    rw [if_neg (by omega), if_neg (by omega)]
  · intro k hk
    simp only [sinPadeP]
    rw [if_neg (by omega), if_neg (by omega)]
  · intro k hk
    interval_cases k <;>
      norm_num [sinPadeP, sinPadeQ, Finset.sum_range_succ, List.getD]

theorem sinPade_unique :
    ∀ y, padeSystem (fun i => ([0, 1, 0, -(1 / 6), 0, 1 / 120] : List ℝ).getD i 0) 3 2 y
      → y = (sinPadeP, sinPadeQ) := by
  rintro ⟨yp, yq⟩ ⟨hq0, hqs, hps, heq⟩
  dsimp only at hq0 hqs hps heq
  have e0 := heq 0 (by norm_num)
  have e1 := heq 1 (by norm_num)
  have e2 := heq 2 (by norm_num)
  have e3 := heq 3 (by norm_num)
  have e4 := heq 4 (by norm_num)
  have e5 := heq 5 (by norm_num)
  simp only [Finset.sum_range_succ] at e0 e1 e2 e3 e4 e5
  norm_num [List.getD] at e0 e1 e2 e3 e4 e5
  have hp4 : yp 4 = 0 := hps 4 (by norm_num)
  have hp5 : yp 5 = 0 := hps 5 (by norm_num)
  have hyq1 : yq 1 = 0 := by
    rw [hp4] at e4
    linarith
  have hyq2 : yq 2 = 1 / 20 := by
    rw [hp5, hq0] at e5
    linarith
  have hyp0 : yp 0 = 0 := by linarith
  have hyp1 : yp 1 = 1 := by
    rw [hq0] at e1
    linarith
  have hyp2 : yp 2 = 0 := by
    rw [hyq1] at e2
    linarith
  have hyp3 : yp 3 = -(7 / 60) := by
    rw [hq0, hyq2] at e3
    linarith
  have hp : yp = sinPadeP := by
    funext k
    match k with
    | 0 => simpa [sinPadeP] using hyp0
    | 1 => simpa [sinPadeP] using hyp1
    | 2 => simpa [sinPadeP] using hyp2
    | 3 => simpa [sinPadeP] using hyp3
    | (n + 4) =>
        rw [hps (n + 4) (by omega)]
        simp only [sinPadeP]
        rw [if_neg (by omega), if_neg (by omega)]
  have hq : yq = sinPadeQ := by
    funext j
    match j with
    | 0 => simpa [sinPadeQ] using hq0
    | 1 => simpa [sinPadeQ] using hyq1
    | 2 => simpa [sinPadeQ] using hyq2
    | (n + 3) =>
        rw [hqs (n + 3) (by omega)]
        simp only [sinPadeQ]
        rw [if_neg (by omega), if_neg (by omega)]
  rw [hp, hq]

/-- The scipy `pade` result on the `sin` coefficients with `order_n = 2`:
descending coefficient lists of `P(x) = x - 7x³/60` and `Q(x) = 1 + x²/20`. -/
theorem sin_pade_ok :
    pade [0, 1, 0, -(1 / 6), 0, 1 / 120] 2
      = .ok ([-(7 / 60), 0, 1, 0], [1 / 20, 0, 1]) := by
  have h := pade_eq_ok [0, 1, 0, -(1 / 6), 0, 1 / 120] 2 (by norm_num)
    (sinPadeP, sinPadeQ) sinPade_system sinPade_unique
  rw [h]
  norm_num [poly1d, trimZeros, sinPadeP, sinPadeQ, List.range_succ]
  exact ⟨by simp, by simp⟩

/-- Full result of `PadeApproximation.compute_coefficients` on
`f = sin x`, `order_m = 3`, `order_n = 2`, at ANY stored point: the stored
point is not consulted, the expansion happens about `0`. -/
theorem sin32_compute (pt : ℚ) :
    PadeApproximation.compute_coefficients (PadeApproximation.mkPade (SExpr.sin SExpr.var) 3 2 pt)
      = .ok { function := SExpr.sin SExpr.var, order_m := 3, order_n := 2, point := pt,
              numerator := some [-(7 / 60), 0, 1, 0], denominator := some [1 / 20, 0, 1] } := by
  unfold PadeApproximation.compute_coefficients
  rw [show ((PadeApproximation.mkPade (SExpr.sin SExpr.var) 3 2 pt).order_m
        + (PadeApproximation.mkPade (SExpr.sin SExpr.var) 3 2 pt).order_n + 1).toNat = 6 from rfl,
    show (PadeApproximation.mkPade (SExpr.sin SExpr.var) 3 2 pt).function = SExpr.sin SExpr.var
      from rfl,
    taylor_coeffs_sin,
    show (PadeApproximation.mkPade (SExpr.sin SExpr.var) 3 2 pt).order_n = 2 from rfl,
    sin_pade_ok]
  rfl

/-- The first six iterated derivatives of `sin` at `0`, computed through the
embedded symbolic differentiation. -/
theorem sin_iteratedDeriv_vals :
    iteratedDeriv 0 Real.sin 0 = 0 ∧ iteratedDeriv 1 Real.sin 0 = 1 ∧
    iteratedDeriv 2 Real.sin 0 = 0 ∧ iteratedDeriv 3 Real.sin 0 = -1 ∧
    iteratedDeriv 4 Real.sin 0 = 0 ∧ iteratedDeriv 5 Real.sin 0 = 1 := by
  have hs : eval (SExpr.sin SExpr.var) = Real.sin := funext fun x => rfl
  have h : ∀ n : ℕ, iteratedDeriv n Real.sin 0 = eval (sderivN n (SExpr.sin SExpr.var)) 0 := by
    intro n
    rw [eval_sderivN, hs]
  refine ⟨?_, ?_, ?_, ?_, ?_, ?_⟩ <;> rw [h] <;> norm_num [sderivN, sderiv, eval]

/-- Claim C3: for `f = sin x`, `orderM = 3`, `orderN = 2`, `point = 0`, the
power-series expansion about `0` through order `5` of the stored rational
function `P/Q` (the sequence `e` determined by the division relation
`Σ_{j≤k} q_j e_{k-j} = p_k`, well-posed since `q₀ = 1`) matches the Taylor
coefficients of `sin` through order `5`. -/
theorem pade_sin32_reconstruction (st : PadeApproximation) (num den : List ℝ)
    (hok : PadeApproximation.compute_coefficients
        (PadeApproximation.mkPade (SExpr.sin SExpr.var) 3 2 0) = .ok st)
    (hnum : st.numerator = some num) (hden : st.denominator = some den)
    (e : ℕ → ℝ)
    (hexp : ∀ k, k ≤ 5 →
      ∑ j ∈ Finset.range (k + 1), polyCoeff den j * e (k - j) = polyCoeff num k) :
    ∀ k, k ≤ 5 → e k = iteratedDeriv k Real.sin 0 / k.factorial := by
  rw [sin32_compute 0] at hok
  injection hok with hok
  rw [← hok] at hnum hden
  simp only [Option.some.injEq] at hnum hden
  subst hnum
  subst hden
  have h0 := hexp 0 (by norm_num)
  have h1 := hexp 1 (by norm_num)
  have h2 := hexp 2 (by norm_num)
  have h3 := hexp 3 (by norm_num)
  have h4 := hexp 4 (by norm_num)
  have h5 := hexp 5 (by norm_num)
  norm_num [Finset.sum_range_succ, polyCoeff] at h0 h1 h2 h3 h4 h5
  obtain ⟨hv0, hv1, hv2, hv3, hv4, hv5⟩ := sin_iteratedDeriv_vals
  intro k hk
  interval_cases k <;>
    simp only [hv0, hv1, hv2, hv3, hv4, hv5, Nat.factorial] <;>
    norm_num <;> linarith

/-- Witness for C3: the computation succeeds, and the Taylor coefficients of
`sin` themselves satisfy the division relation, so the hypotheses are
jointly satisfiable; the conclusion is C3's equality for that witness. -/
theorem pade_sin32_reconstruction_witness :
    (PadeApproximation.compute_coefficients (PadeApproximation.mkPade (SExpr.sin SExpr.var) 3 2 0)
      = .ok { function := SExpr.sin SExpr.var, order_m := 3, order_n := 2, point := 0,
              numerator := some [-(7 / 60), 0, 1, 0], denominator := some [1 / 20, 0, 1] }) ∧
    (∀ k, k ≤ 5 →
      ∑ j ∈ Finset.range (k + 1), polyCoeff [1 / 20, 0, 1] j
          * ([0, 1, 0, -(1 / 6), 0, 1 / 120] : List ℝ).getD (k - j) 0
        = polyCoeff [-(7 / 60), 0, 1, 0] k) ∧
    ∀ k, k ≤ 5 → ([0, 1, 0, -(1 / 6), 0, 1 / 120] : List ℝ).getD k 0
        = iteratedDeriv k Real.sin 0 / k.factorial := by
  refine ⟨sin32_compute 0, ?_, ?_⟩
  · intro k hk
    interval_cases k <;> norm_num [polyCoeff, Finset.sum_range_succ]
  · exact pade_sin32_reconstruction _ _ _ (sin32_compute 0) rfl rfl _
      (by intro k hk; interval_cases k <;> norm_num [polyCoeff, Finset.sum_range_succ])

/-- Claim C8 counterexample: for `sin`, `(3, 2)`, the stored denominator is
the descending `poly1d` list `[1/20, 0, 1]` (that is `x²/20 + 1`), whose
leading coefficient is `1/20 ≠ 1`; the normalization fixes the CONSTANT
term, not the leading one. -/
theorem pade_denominator_leading_cex :
    Except.map (fun st => (st.denominator.getD []).headD 0)
      (PadeApproximation.compute_coefficients (PadeApproximation.mkPade (SExpr.sin SExpr.var) 3 2 0))
      = .ok (1 / 20 : ℝ) ∧ (1 / 20 : ℝ) ≠ 1 := by
  refine ⟨?_, by norm_num⟩
  rw [sin32_compute 0]
  rfl

/-- Any successful scipy `pade` call returns a denominator list whose LAST
entry (the constant coefficient, in descending storage) is `1`. -/
theorem pade_ok_denominator (an : List ℝ) (m : ℤ) (p q : List ℝ)
    (h : pade an m = .ok (p, q)) : q.getLast? = some 1 := by
  unfold pade at h
  by_cases hg : (an.length : ℤ) - 1 - m < 0 ∨ m < 0
  · rw [if_pos hg] at h
    exact Except.noConfusion h
  · rw [if_neg hg] at h
    by_cases hexu : ∃! pq : (ℕ → ℝ) × (ℕ → ℝ),
        padeSystem (fun i => an.getD i 0) ((an.length : ℤ) - 1 - m).toNat m.toNat pq
    · rw [dif_pos hexu] at h
      injection h with h2
      have hq : poly1d ((List.range (m.toNat + 1)).map hexu.choose.2) = q :=
        congrArg Prod.snd h2
      have hq0 : hexu.choose.2 0 = 1 := hexu.choose_spec.1.1
      have hhead : ((List.range (m.toNat + 1)).map hexu.choose.2).head? = some 1 := by
        rw [List.range_succ_eq_map, List.map_cons, List.head?_cons, hq0]
      rw [← hq]
      exact poly1d_getLast _ 1 one_ne_zero hhead
    · rw [dif_neg hexu] at h
      exact Except.noConfusion h

/-- Claim C8 (amended): after a successful `compute_coefficients`, the stored
denominator polynomial is normalized so that its constant (lowest-order)
coefficient — the last entry of the descending `poly1d` list — equals `1`. -/
theorem pade_denominator_constant_one (f : SExpr) (m n : ℤ) (pt : ℚ) (st : PadeApproximation)
    (h : PadeApproximation.compute_coefficients (PadeApproximation.mkPade f m n pt) = .ok st) :
    ∃ den, st.denominator = some den ∧ den.getLast? = some 1 := by
  unfold PadeApproximation.compute_coefficients at h
  cases hpa : pade (taylor_coeffs (PadeApproximation.mkPade f m n pt).function
      ((PadeApproximation.mkPade f m n pt).order_m
        + (PadeApproximation.mkPade f m n pt).order_n + 1).toNat)
      (PadeApproximation.mkPade f m n pt).order_n with
  | error e =>
      rw [hpa] at h
      exact Except.noConfusion h
  | ok pq =>
      rw [hpa] at h
      injection h with h
      refine ⟨pq.2, ?_, ?_⟩
      · rw [← h]
      · exact pade_ok_denominator _ _ pq.1 pq.2 (by rw [Prod.mk.eta]; exact hpa)

/-- Witness for the amended C8 at the `sin`, `(3, 2)` instance. -/
theorem pade_denominator_constant_one_witness :
    (PadeApproximation.compute_coefficients (PadeApproximation.mkPade (SExpr.sin SExpr.var) 3 2 0)
      = .ok { function := SExpr.sin SExpr.var, order_m := 3, order_n := 2, point := 0,
              numerator := some [-(7 / 60), 0, 1, 0], denominator := some [1 / 20, 0, 1] }) ∧
    ∃ den, ({ function := SExpr.sin SExpr.var, order_m := 3, order_n := 2, point := 0,
              numerator := some [-(7 / 60), 0, 1, 0], denominator := some [1 / 20, 0, 1] }
        : PadeApproximation).denominator = some den ∧ den.getLast? = some 1 :=
  ⟨sin32_compute 0, pade_denominator_constant_one _ _ _ _ _ (sin32_compute 0)⟩

/-- Claim C9: the stored expansion point is never read by
`PadeApproximation.compute_coefficients` — two instances differing only in
`point` produce identical numerator/denominator results (or the identical
error). -/
theorem pade_point_not_read (f : SExpr) (m n : ℤ) (p₁ p₂ : ℚ) :
    Except.map (fun st => (st.numerator, st.denominator))
      (PadeApproximation.compute_coefficients (PadeApproximation.mkPade f m n p₁))
    = Except.map (fun st => (st.numerator, st.denominator))
      (PadeApproximation.compute_coefficients (PadeApproximation.mkPade f m n p₂)) := by
  simp only [PadeApproximation.compute_coefficients, PadeApproximation.mkPade]
  cases hpa : pade (taylor_coeffs f (m + n + 1).toNat) n <;> simp [hpa, Except.map]

/-- Claim C6: when the Pade linear system for the extracted Taylor
coefficients is singular (no unique solution), `compute_coefficients`
surfaces `np.linalg.solve`'s `LinAlgError` to the caller — the exception
propagates before the assignment, so no numerator/denominator is ever
stored. -/
theorem pade_singular_error (f : SExpr) (m n : ℤ) (pt : ℚ) (hm : 0 ≤ m) (hn : 0 ≤ n)
    (hsing : ¬ ∃! pq : (ℕ → ℝ) × (ℕ → ℝ),
        padeSystem (fun i => (taylor_coeffs f (m + n + 1).toNat).getD i 0)
          (((taylor_coeffs f (m + n + 1).toNat).length : ℤ) - 1 - n).toNat n.toNat pq) :
    PadeApproximation.compute_coefficients (PadeApproximation.mkPade f m n pt)
      = .error .linAlgError := by
  have hlen : ((taylor_coeffs f (m + n + 1).toNat).length : ℤ) = ((m + n + 1).toNat : ℤ) := by
    simp [taylor_coeffs]
  have hg : ¬(((taylor_coeffs f (m + n + 1).toNat).length : ℤ) - 1 - n < 0 ∨ n < 0) := by
    rw [hlen]
    omega
  simp only [PadeApproximation.compute_coefficients, PadeApproximation.mkPade]
  rw [show pade (taylor_coeffs f (m + n + 1).toNat) n = .error .linAlgError from by
    unfold pade
    rw [if_neg hg, dif_neg hsing]]

/-- Witness for C6: the zero function with `order_m = 0`, `order_n = 1`
yields the all-zero Taylor coefficients, whose Pade system is singular. -/
theorem pade_singular_error_witness :
    (0 : ℤ) ≤ 0 ∧ (0 : ℤ) ≤ 1 ∧
    PadeApproximation.compute_coefficients (PadeApproximation.mkPade (SExpr.const 0) 0 1 0)
      = .error .linAlgError := by
  have htc : taylor_coeffs (SExpr.const 0) 2 = [0, 0] := by
    norm_num [taylor_coeffs, List.range_succ, sderivN, sderiv, eval]
  have hsing0 : ¬ ∃! pq : (ℕ → ℝ) × (ℕ → ℝ),
      padeSystem (fun i => ([0, 0] : List ℝ).getD i 0) 0 1 pq := by
    rintro ⟨⟨zp, zq⟩, hz, hu⟩
    have hy1 : padeSystem (fun i => ([0, 0] : List ℝ).getD i 0) 0 1
        ((fun _ => 0), (fun j => if j = 0 then 1 else 0)) := by
      refine ⟨rfl, ?_, ?_, ?_⟩
      · intro j hj
        simp only
        rw [if_neg (by omega)]
      · intro k _
        rfl
      · intro k hk
        interval_cases k <;> norm_num [Finset.sum_range_succ, List.getD]
    have hy2 : padeSystem (fun i => ([0, 0] : List ℝ).getD i 0) 0 1
        ((fun _ => 0), (fun j => if j = 0 then 1 else if j = 1 then 1 else 0)) := by
      refine ⟨rfl, ?_, ?_, ?_⟩
      · intro j hj
        simp only
        rw [if_neg (by omega), if_neg (by omega)]
      · intro k _
        rfl
      · intro k hk
        interval_cases k <;> norm_num [Finset.sum_range_succ, List.getD]
    have h1 := hu _ hy1
    have h2 := hu _ hy2
    have h12 := h1.trans h2.symm
    have hc := congrFun (congrArg Prod.snd h12) 1
    norm_num at hc
  refine ⟨le_refl 0, by norm_num, ?_⟩
  refine pade_singular_error (SExpr.const 0) 0 1 0 (le_refl 0) (by norm_num) ?_
  rw [show ((0 : ℤ) + 1 + 1).toNat = 2 from rfl, htc]
  simp only [show ((([0, 0] : List ℝ).length : ℤ) - 1 - 1).toNat = 0 from by norm_num,
    show (1 : ℤ).toNat = 1 from rfl]
  exact hsing0

/-- Claim C4 (amended): no `InvalidParameter` validation exists.  A negative
`degree` makes `TaylorApproximation.compute_coefficients` return normally
with an empty coefficient list, and a negative `order_m` or `order_n` makes
`PadeApproximation.compute_coefficients` fail only inside the scipy `pade`
call with a generic `ValueError`, not with an up-front validation error. -/
theorem negative_orders_behavior (f : SExpr) (d m n : ℤ) (pt : ℚ)
    (hd : d < 0) (hmn : m < 0 ∨ n < 0) :
    ((TaylorApproximation.mkTaylor f d pt).compute_coefficients).coefficients = [] ∧
    PadeApproximation.compute_coefficients (PadeApproximation.mkPade f m n pt)
      = .error .valueError := by
  constructor
  · simp [TaylorApproximation.compute_coefficients, TaylorApproximation.mkTaylor,
      show (d + 1).toNat = 0 from by omega]
  · have hlen : ((taylor_coeffs f (m + n + 1).toNat).length : ℤ) = ((m + n + 1).toNat : ℤ) := by
      simp [taylor_coeffs]
    have hg : ((taylor_coeffs f (m + n + 1).toNat).length : ℤ) - 1 - n < 0 ∨ n < 0 := by
      rw [hlen]
      omega
    simp only [PadeApproximation.compute_coefficients, PadeApproximation.mkPade]
    rw [show pade (taylor_coeffs f (m + n + 1).toNat) n = .error .valueError from by
      unfold pade
      rw [if_pos hg]]

/-- Witness for the amended C4 at `degree = -1`, `(order_m, order_n) = (-1, 2)`. -/
theorem negative_orders_behavior_witness :
    (-1 : ℤ) < 0 ∧ ((-1 : ℤ) < 0 ∨ (2 : ℤ) < 0) ∧
    (((TaylorApproximation.mkTaylor (SExpr.sin SExpr.var) (-1) 0).compute_coefficients).coefficients
        = [] ∧
      PadeApproximation.compute_coefficients (PadeApproximation.mkPade (SExpr.sin SExpr.var) (-1) 2 0)
        = .error .valueError) :=
  ⟨by norm_num, Or.inl (by norm_num),
    negative_orders_behavior (SExpr.sin SExpr.var) (-1) (-1) 2 0 (by norm_num)
      (Or.inl (by norm_num))⟩

/-- Claim C2 (code bug): step 1 of `PadeApproximation.compute_coefficients`
calls sympy's `series` WITHOUT an `x0` argument, so the expansion is taken
about `0` regardless of the stored `point` (contradicting the method's own
docstring, "around the specified point").  At the failing input
`f = sin x`, `point = 1`: the extracted constant coefficient is `0` (the
about-`0` value), whereas an expansion about `1` has constant coefficient
`sin 1 ≠ 0`; the full result at `point = 1` is the about-`0` Pade. -/
theorem pade_expansion_fixed_at_zero :
    (taylor_coeffs (SExpr.sin SExpr.var) 6).getD 0 0 = 0 ∧
    iteratedDeriv 0 Real.sin 1 ≠ 0 ∧
    PadeApproximation.compute_coefficients (PadeApproximation.mkPade (SExpr.sin SExpr.var) 3 2 1)
      = .ok { function := SExpr.sin SExpr.var, order_m := 3, order_n := 2, point := 1,
              numerator := some [-(7 / 60), 0, 1, 0], denominator := some [1 / 20, 0, 1] } := by
  refine ⟨?_, ?_, sin32_compute 1⟩
  · rw [taylor_coeffs_sin]
    rfl
  · rw [iteratedDeriv_zero]
    exact ne_of_gt (Real.sin_pos_of_pos_of_lt_pi one_pos (by linarith [Real.pi_gt_three]))

end Approx
